import Mathlib

/-!
Shallow embedding of `performance/python/benchmarks.py`: the timing primitive,
the two growable containers (`DynamicArray`, `DynamicString`), the workload
kernels and the report lines of the runner, together with theorems checking
the specification's claims about them.
-/

set_option maxRecDepth 10000

/-- Embeds `get_time_microseconds`: the source reads the process wall clock
(`int(time.time() * 1000000)`).  The environment is modelled as a trace
`clock : Nat → Int` giving the integer-microsecond value returned by the
i-th call; nothing in the source constrains the trace (in particular
`time.time` is settable wall-clock time, so a later reading may be smaller). -/
def get_time_microseconds (clock : Nat → Int) (i : Nat) : Int := clock i

/-- Embeds the class `BenchmarkTimer` with fields `start_time`, `end_time`,
`duration`, all initialised to 0 in `__init__`. -/
structure BenchmarkTimer where
  start_time : Int
  end_time : Int
  duration : Int
  deriving Repr, DecidableEq

/-- Embeds `BenchmarkTimer.__init__`. -/
def BenchmarkTimer.init : BenchmarkTimer := ⟨0, 0, 0⟩

/-- Embeds `BenchmarkTimer.start`: records the current clock reading
(the `i`-th call of `get_time_microseconds`). -/
def BenchmarkTimer.start (t : BenchmarkTimer) (clock : Nat → Int) (i : Nat) :
    BenchmarkTimer :=
  { t with start_time := get_time_microseconds clock i }

/-- Embeds `BenchmarkTimer.end`: records the current clock reading (the `j`-th
call of `get_time_microseconds`) and sets `duration = end_time - start_time`.
(`end` is a reserved word in Lean, hence the name `stop`.) -/
def BenchmarkTimer.stop (t : BenchmarkTimer) (clock : Nat → Int) (j : Nat) :
    BenchmarkTimer :=
  let e := get_time_microseconds clock j
  { t with end_time := e, duration := e - t.start_time }

/-- Embeds the class `DynamicArray`: a Python list `data` plus a separately
tracked integer `capacity`. -/
structure DynamicArray where
  data : List Int
  capacity : Int
  deriving Repr, DecidableEq

/-- Embeds `DynamicArray.__init__(initial_capacity)`: empty data,
capacity as given (the source's default is 1000; every call site passes 1000). -/
def DynamicArray.mkInit (initial_capacity : Int) : DynamicArray :=
  ⟨[], initial_capacity⟩

/-- Embeds `DynamicArray.push`: append `value` to `data`, then if
`len(self.data) > self.capacity`, double the capacity. -/
def DynamicArray.push (a : DynamicArray) (value : Int) : DynamicArray :=
  let d := a.data ++ [value]
  if (d.length : Int) > a.capacity then ⟨d, a.capacity * 2⟩ else ⟨d, a.capacity⟩

/-- Embeds `DynamicArray.__len__`. -/
def DynamicArray.len (a : DynamicArray) : Nat := a.data.length

/-- Embeds an in-range read through `DynamicArray.__getitem__` (the source
delegates to Python list indexing; an out-of-range index raises `IndexError`,
modelled by `none`). -/
def DynamicArray.getItem (a : DynamicArray) (index : Nat) : Option Int :=
  a.data[index]?

/-- A whole run of `DynamicArray.push` calls, in order. -/
def DynamicArray.pushAll (a : DynamicArray) (vs : List Int) : DynamicArray :=
  vs.foldl DynamicArray.push a

/-- Embeds the class `DynamicString`: a Python string `data` plus a separately
tracked integer `capacity`. -/
structure DynamicString where
  data : String
  capacity : Int
  deriving Repr, DecidableEq

/-- Embeds `DynamicString.__init__(initial_capacity)`. -/
def DynamicString.mkInit (initial_capacity : Int) : DynamicString :=
  ⟨"", initial_capacity⟩

/-- Embeds `DynamicString.append`: concatenate `value` onto `data`, then if
`len(self.data) > self.capacity`, double the capacity. -/
def DynamicString.append (s : DynamicString) (value : String) : DynamicString :=
  let d := s.data ++ value
  if (d.length : Int) > s.capacity then ⟨d, s.capacity * 2⟩ else ⟨d, s.capacity⟩

/-- A whole run of `DynamicString.append` calls, in order. -/
def DynamicString.appendAll (s : DynamicString) (fs : List String) : DynamicString :=
  fs.foldl DynamicString.append s

/-- Embeds `fibonacci`: `if n <= 1: return n` else
`fibonacci(n - 1) + fibonacci(n - 2)`.  Python integers are signed, so the
argument is `Int`; the recursion terminates because `Int.toNat` decreases. -/
def fibonacci (n : Int) : Int :=
  if n ≤ 1 then n
  else fibonacci (n - 1) + fibonacci (n - 2)
termination_by n.toNat
decreasing_by
  · omega
  · omega

/-- Embeds benchmark 1 (Simple Loop): `sum_val = 0`, then
`for i in range(1, 1000001): sum_val += i`. -/
def simpleLoopSum : Int :=
  (List.range' 1 1000000).foldl (fun (s : Int) (i : Nat) => s + (i : Int)) 0

/-- Embeds the body of the benchmark-10 loop (Memory Operations): push `i`,
then if `len(mem_arr) > 5000`, replace the array by `DynamicArray(1000)`. -/
def memoryKernelStep (a : DynamicArray) (i : Int) : DynamicArray :=
  let a' := a.push i
  if a'.data.length > 5000 then DynamicArray.mkInit 1000 else a'

/-- Embeds benchmark 10 (Memory Operations): `mem_arr = DynamicArray(1000)`,
then `for i in range(1, 10001)` run `memoryKernelStep`. -/
def memoryKernel : DynamicArray :=
  (List.range' 1 10000).foldl (fun (a : DynamicArray) (i : Nat) => memoryKernelStep a (i : Int))
    (DynamicArray.mkInit 1000)

/-! Basic facts used by several claims. -/

theorem DynamicArray.push_data (a : DynamicArray) (v : Int) :
    (a.push v).data = a.data ++ [v] := by
  unfold DynamicArray.push
  dsimp only
  split <;> rfl

theorem DynamicArray.push_length (a : DynamicArray) (v : Int) :
    (a.push v).data.length = a.data.length + 1 := by
  rw [DynamicArray.push_data]; simp

theorem memoryKernelStep_length (a : DynamicArray) (i : Int) :
    (memoryKernelStep a i).data.length =
      if a.data.length + 1 > 5000 then 0 else a.data.length + 1 := by
  unfold memoryKernelStep
  by_cases h : (a.push i).data.length > 5000
  · simp only [h, if_pos]
    rw [DynamicArray.push_length] at h
    simp [DynamicArray.mkInit, h]
  · simp only [h, if_neg, not_false_iff]
    rw [DynamicArray.push_length] at h ⊢
    simp [h]

/-! Bubble sort.  The source mutates a Python list through indexed swaps:
`for i in range(len(arr) - 1): for j in range(len(arr) - i - 1): if arr[j] > arr[j+1]: swap`.
The body of the inner loop is `bubbleStep`, the inner loop is `innerPass`,
and `bubble_sort` is the double loop. -/

/-- Embeds one execution of the inner-loop body at index `j`:
`if arr[j] > arr[j + 1]: arr[j], arr[j + 1] = arr[j + 1], arr[j]`.
The loop bounds guarantee `j + 1 < len(arr)`; outside that range the body is
never executed, so the function returns the list unchanged there. -/
def bubbleStep (l : List Int) (j : Nat) : List Int :=
  if h : j + 1 < l.length then
    if l.get ⟨j, by omega⟩ > l.get ⟨j + 1, h⟩ then
      (l.set j (l.get ⟨j + 1, h⟩)).set (j + 1) (l.get ⟨j, by omega⟩)
    else l
  else l

/-- Embeds the inner loop `for j in range(m): bubbleStep`. -/
def innerPass (l : List Int) (m : Nat) : List Int :=
  (List.range m).foldl bubbleStep l

/-- Embeds `bubble_sort(arr)`: `for i in range(len(arr) - 1)` run the inner
loop with bound `len(arr) - i - 1` (the length is re-read from the current
array, as the source does). -/
def bubble_sort (arr : List Int) : List Int :=
  (List.range (arr.length - 1)).foldl (fun a i => innerPass a (a.length - i - 1)) arr

/-- Recursive form of one unbounded bubble pass over a whole list. -/
def bpass : List Int → List Int
  | [] => []
  | [a] => [a]
  | a :: b :: t => if a > b then b :: bpass (a :: t) else a :: bpass (b :: t)
termination_by l => l.length
decreasing_by all_goals simp

/-- Recursive form of a bubble pass limited to the first `m` comparisons. -/
def bpassN : List Int → Nat → List Int
  | l, 0 => l
  | [], _ + 1 => []
  | [a], _ + 1 => [a]
  | a :: b :: t, m + 1 =>
      if a > b then b :: bpassN (a :: t) m else a :: bpassN (b :: t) m

theorem bubbleStep_nil (j : Nat) : bubbleStep [] j = [] := by
  unfold bubbleStep
  rw [dif_neg (by simp)]

theorem bubbleStep_single (a : Int) (j : Nat) : bubbleStep [a] j = [a] := by
  unfold bubbleStep
  rw [dif_neg (by simp)]

theorem bubbleStep_zero (a b : Int) (t : List Int) :
    bubbleStep (a :: b :: t) 0 = if a > b then b :: a :: t else a :: b :: t := by
  unfold bubbleStep
  rw [dif_pos (by simp)]
  rfl

theorem bubbleStep_succ (a : Int) (l : List Int) (j : Nat) :
    bubbleStep (a :: l) (j + 1) = a :: bubbleStep l j := by
  unfold bubbleStep
  by_cases h : j + 1 < l.length
  · rw [dif_pos (by simpa using h), dif_pos h]
    simp only [List.get_cons_succ, List.set_cons_succ]
    split <;> rfl
  · rw [dif_neg (by simpa using h), dif_neg h]

theorem foldl_bubbleStep_nil (js : List Nat) :
    js.foldl bubbleStep [] = [] := by
  induction js with
  | nil => rfl
  | cons j js ih => simpa [bubbleStep_nil] using ih

theorem foldl_bubbleStep_shift (js : List Nat) (c : Int) (l : List Int) :
    (js.map Nat.succ).foldl bubbleStep (c :: l) = c :: js.foldl bubbleStep l := by
  induction js generalizing l with
  | nil => rfl
  | cons j js ih =>
      simp only [List.map_cons, List.foldl_cons, Nat.succ_eq_add_one, bubbleStep_succ]
      exact ih (bubbleStep l j)

theorem innerPass_eq_bpassN (m : Nat) (l : List Int) :
    innerPass l m = bpassN l m := by
  induction m generalizing l with
  | zero => simp [innerPass, bpassN]
  | succ m ih =>
      unfold innerPass
      rw [List.range_succ_eq_map, List.foldl_cons]
      match l with
      | [] => rw [bubbleStep_nil, foldl_bubbleStep_nil, bpassN]
      | [a] =>
          rw [bubbleStep_single]
          show (List.map Nat.succ (List.range m)).foldl bubbleStep (a :: []) = _
          rw [foldl_bubbleStep_shift, foldl_bubbleStep_nil, bpassN]
      | a :: b :: t =>
          rw [bubbleStep_zero, bpassN]
          by_cases hab : a > b
          · rw [if_pos hab, if_pos hab, foldl_bubbleStep_shift, ← innerPass, ih]
          · rw [if_neg hab, if_neg hab, foldl_bubbleStep_shift, ← innerPass, ih]

theorem bpassN_take_drop (m : Nat) (l : List Int) :
    bpassN l m = bpass (l.take (m + 1)) ++ l.drop (m + 1) := by
  induction m generalizing l with
  | zero =>
      match l with
      | [] => simp [bpassN, bpass]
      | a :: t => simp [bpassN, bpass]
  | succ m ih =>
      match l with
      | [] => simp [bpassN, bpass]
      | [a] => simp [bpassN, bpass]
      | a :: b :: t =>
          rw [bpassN]
          by_cases hab : a > b
          · rw [if_pos hab, ih (a :: t)]
            simp only [List.take_succ_cons, List.drop_succ_cons]
            rw [bpass]
            rw [if_pos hab]
            simp
          · rw [if_neg hab, ih (b :: t)]
            simp only [List.take_succ_cons, List.drop_succ_cons]
            rw [bpass]
            rw [if_neg hab]
            simp

theorem bpass_perm (l : List Int) : List.Perm (bpass l) l := by
  induction l using bpass.induct with
  | case1 => simp [bpass]
  | case2 a => simp [bpass]
  | case3 a b t hab ih =>
      rw [bpass, if_pos hab]
      exact (ih.cons b).trans (List.Perm.swap a b t)
  | case4 a b t hab ih =>
      rw [bpass, if_neg hab]
      exact ih.cons a

theorem bpass_length (l : List Int) : (bpass l).length = l.length :=
  (bpass_perm l).length_eq

theorem bpass_exists_max (l : List Int) (hne : l ≠ []) :
    ∃ l' M, bpass l = l' ++ [M] ∧ ∀ x ∈ l, x ≤ M := by
  induction l using bpass.induct with
  | case1 => exact absurd rfl hne
  | case2 a =>
      exact ⟨[], a, by simp [bpass], by simp⟩
  | case3 a b t hab ih =>
      obtain ⟨l', M, hEq, hle⟩ := ih (by simp)
      refine ⟨b :: l', M, ?_, ?_⟩
      · rw [bpass, if_pos hab, hEq]; rfl
      · intro x hx
        rcases List.mem_cons.1 hx with rfl | hx
        · exact hle x (by simp)
        · rcases List.mem_cons.1 hx with rfl | hx
          · exact le_of_lt (lt_of_lt_of_le hab (hle a (by simp)))
          · exact hle x (by simp [hx])
  | case4 a b t hab ih =>
      obtain ⟨l', M, hEq, hle⟩ := ih (by simp)
      refine ⟨a :: l', M, ?_, ?_⟩
      · rw [bpass, if_neg hab, hEq]; rfl
      · intro x hx
        rcases List.mem_cons.1 hx with rfl | hx
        · exact le_trans (not_lt.1 hab) (hle b (by simp))
        · exact hle x hx

theorem bpassN_perm (l : List Int) (m : Nat) : List.Perm (bpassN l m) l := by
  rw [bpassN_take_drop]
  have h1 : List.Perm (bpass (l.take (m + 1)) ++ l.drop (m + 1))
      (l.take (m + 1) ++ l.drop (m + 1)) :=
    (bpass_perm (l.take (m + 1))).append_right _
  rw [List.take_append_drop] at h1
  exact h1

theorem bpassN_length (l : List Int) (m : Nat) :
    (bpassN l m).length = l.length :=
  (bpassN_perm l m).length_eq

/-- The outer loop of `bubble_sort`, with the inner-pass bound counting down. -/
def bsAux : List Int → Nat → List Int
  | l, 0 => l
  | l, m + 1 => bsAux (bpassN l (m + 1)) m

theorem bubble_sort_eq_fold_bpassN (arr : List Int) :
    bubble_sort arr =
      (List.range (arr.length - 1)).foldl
        (fun a i => bpassN a (a.length - i - 1)) arr := by
  simp only [bubble_sort, innerPass_eq_bpassN]

theorem fold_bpassN_fixed_len (k : Nat) (l : List Int) :
    (List.range k).foldl (fun a i => bpassN a (a.length - i - 1)) l =
      (List.range k).foldl (fun a i => bpassN a (l.length - i - 1)) l ∧
    ((List.range k).foldl (fun a i => bpassN a (l.length - i - 1)) l).length
      = l.length := by
  induction k with
  | zero => exact ⟨rfl, rfl⟩
  | succ k ih =>
      obtain ⟨h1, h2⟩ := ih
      rw [List.range_succ]
      constructor
      · rw [List.foldl_append, List.foldl_append]
        simp only [List.foldl_cons, List.foldl_nil]
        rw [h1, h2]
      · rw [List.foldl_append]
        simp only [List.foldl_cons, List.foldl_nil]
        rw [bpassN_length, h2]

theorem fold_bpassN_eq_bsAux (m : Nat) (l : List Int) :
    (List.range m).foldl (fun a i => bpassN a (m - i)) l = bsAux l m := by
  induction m generalizing l with
  | zero => rfl
  | succ m ih =>
      rw [List.range_succ_eq_map, List.foldl_cons, List.foldl_map]
      have hfun : (fun (a : List Int) (i : Nat) => bpassN a (m + 1 - Nat.succ i)) =
          fun a i => bpassN a (m - i) := by
        funext a i
        congr 1
        omega
      rw [hfun, Nat.sub_zero, ih, bsAux]

theorem bubble_sort_eq_bsAux (arr : List Int) :
    bubble_sort arr = bsAux arr (arr.length - 1) := by
  rw [bubble_sort_eq_fold_bpassN, (fold_bpassN_fixed_len (arr.length - 1) arr).1]
  have hfun : (fun (a : List Int) (i : Nat) => bpassN a (arr.length - i - 1)) =
      fun a i => bpassN a ((arr.length - 1) - i) := by
    funext a i
    congr 1
    omega
  rw [hfun, fold_bpassN_eq_bsAux]

theorem bsAux_correct (m : Nat) :
    ∀ l : List Int, m < l.length →
      List.Sorted (· ≤ ·) (l.drop (m + 1)) →
      (∀ x ∈ l.take (m + 1), ∀ y ∈ l.drop (m + 1), x ≤ y) →
      List.Sorted (· ≤ ·) (bsAux l m) ∧ List.Perm (bsAux l m) l := by
  induction m with
  | zero =>
      intro l hm hs hcross
      match l, hm with
      | a :: t, _ =>
          rw [bsAux]
          refine ⟨List.sorted_cons.2 ⟨?_, ?_⟩, List.Perm.refl _⟩
          · intro b hb
            exact hcross a (by simp) b (by simpa using hb)
          · simpa using hs
  | succ m ih =>
      intro l hm hs hcross
      have hlen_t : (l.take (m + 2)).length = m + 2 := by
        simp only [List.length_take]
        omega
      have htd : bpassN l (m + 1) = bpass (l.take (m + 2)) ++ l.drop (m + 2) :=
        bpassN_take_drop (m + 1) l
      have hne : l.take (m + 2) ≠ [] := by
        intro h
        rw [h] at hlen_t
        simp at hlen_t
      obtain ⟨t', M, hbp, hub⟩ := bpass_exists_max (l.take (m + 2)) hne
      have hlen_t' : t'.length = m + 1 := by
        have hl := bpass_length (l.take (m + 2))
        rw [hbp] at hl
        simp only [List.length_append, List.length_singleton] at hl
        omega
      have hM_mem : M ∈ l.take (m + 2) :=
        (bpass_perm (l.take (m + 2))).subset (by simp [hbp])
      have hl'' : bpassN l (m + 1) = t' ++ (M :: l.drop (m + 2)) := by
        rw [htd, hbp]
        simp
      rw [bsAux, hl'']
      have h1 : m < (t' ++ (M :: l.drop (m + 2))).length := by
        simp only [List.length_append, List.length_cons, hlen_t']
        omega
      have htake : (t' ++ (M :: l.drop (m + 2))).take (m + 1) = t' :=
        List.take_left' hlen_t'
      have hdrop : (t' ++ (M :: l.drop (m + 2))).drop (m + 1) = M :: l.drop (m + 2) :=
        List.drop_left' hlen_t'
      have h2 : List.Sorted (· ≤ ·) (M :: l.drop (m + 2)) := by
        refine List.sorted_cons.2 ⟨?_, hs⟩
        intro b hb
        exact hcross M hM_mem b hb
      have h3 : ∀ x ∈ t', ∀ y ∈ M :: l.drop (m + 2), x ≤ y := by
        intro x hx y hy
        have hxt : x ∈ l.take (m + 2) :=
          (bpass_perm (l.take (m + 2))).subset
            (by rw [hbp]; exact List.mem_append_left _ hx)
        rcases List.mem_cons.1 hy with rfl | hyd
        · exact hub x hxt
        · exact hcross x hxt y hyd
      obtain ⟨hsorted, hperm⟩ :=
        ih (t' ++ (M :: l.drop (m + 2))) h1 (by rw [hdrop]; exact h2)
          (fun x hx y hy => h3 x (by rwa [htake] at hx) y (by rwa [hdrop] at hy))
      refine ⟨hsorted, hperm.trans ?_⟩
      have hstep : t' ++ (M :: l.drop (m + 2)) = bpass (l.take (m + 2)) ++ l.drop (m + 2) := by
        rw [hbp]
        simp
      rw [hstep]
      have hp : List.Perm (bpass (l.take (m + 2)) ++ l.drop (m + 2))
          (l.take (m + 2) ++ l.drop (m + 2)) :=
        (bpass_perm (l.take (m + 2))).append_right _
      rwa [List.take_append_drop] at hp

theorem bubble_sort_sorted (l : List Int) :
    List.Sorted (· ≤ ·) (bubble_sort l) := by
  match hl : l with
  | [] => rw [bubble_sort]; simp
  | a :: t =>
      rw [bubble_sort_eq_bsAux]
      have hlen : (a :: t).length - 1 + 1 = (a :: t).length := by
        simp
      refine (bsAux_correct ((a :: t).length - 1) (a :: t) (by simp) ?_ ?_).1
      · rw [hlen, List.drop_length]
        exact List.sorted_nil
      · intro x _ y hy
        rw [hlen, List.drop_length] at hy
        exact absurd hy (List.not_mem_nil y)

theorem bubble_sort_perm (l : List Int) :
    List.Perm (bubble_sort l) l := by
  match hl : l with
  | [] => rw [bubble_sort]; simp
  | a :: t =>
      rw [bubble_sort_eq_bsAux]
      have hlen : (a :: t).length - 1 + 1 = (a :: t).length := by
        simp
      refine (bsAux_correct ((a :: t).length - 1) (a :: t) (by simp) ?_ ?_).2
      · rw [hlen, List.drop_length]
        exact List.sorted_nil
      · intro x _ y hy
        rw [hlen, List.drop_length] at hy
        exact absurd hy (List.not_mem_nil y)

/-- Embeds benchmark 8's input construction: `sort_arr = []`, then
`for i in range(1, 10001): sort_arr.append(10000 - i)`. -/
def sortInput : List Int :=
  (List.range' 1 10000).foldl (fun (a : List Int) (i : Nat) => a ++ [(10000 : Int) - (i : Int)]) []

/-- The ascending list `[0, 1, ..., 9999]`, which the sorted output is
compared against. -/
def sortedTarget : List Int :=
  (List.range 10000).map (fun (i : Nat) => (i : Int))

theorem foldl_append_singleton (f : Nat → Int) (js : List Nat) :
    ∀ acc : List Int, js.foldl (fun a i => a ++ [f i]) acc = acc ++ js.map f := by
  induction js with
  | nil => intro acc; simp
  | cons j js ih =>
      intro acc
      simp only [List.foldl_cons, List.map_cons, ih]
      simp

theorem sortInput_eq_map :
    sortInput = (List.range' 1 10000).map (fun (i : Nat) => (10000 : Int) - (i : Int)) := by
  rw [sortInput, foldl_append_singleton]
  simp

theorem range'_map_sub_eq_reverse (n : Nat) :
    (List.range' 1 n).map (fun (i : Nat) => ((n : Int) - (i : Int))) =
      ((List.range n).map (fun (i : Nat) => (i : Int))).reverse := by
  apply List.ext_getElem
  · simp
  · intro i h1 h2
    simp only [List.length_map, List.length_range'] at h1
    rw [List.getElem_map, List.getElem_range', List.getElem_reverse,
      List.getElem_map, List.getElem_range]
    have hc : ((n - 1 - i : Nat) : Int) = (n : Int) - 1 - (i : Int) := by
      have : (n - 1 - i : Nat) = n - (1 + i) := by omega
      rw [this, Nat.cast_sub (by omega)]
      push_cast
      ring
    simp only [List.length_map, List.length_range]
    rw [hc]
    push_cast
    ring

theorem sortInput_eq_reverse : sortInput = sortedTarget.reverse := by
  rw [sortInput_eq_map, sortedTarget]
  have h := range'_map_sub_eq_reverse 10000
  norm_num at h
  exact h

theorem sortedTarget_pairwise_lt : List.Pairwise (· < ·) sortedTarget := by
  rw [sortedTarget]
  exact (List.pairwise_lt_range 10000).map _ (fun a b h => by exact_mod_cast h)

theorem sortedTarget_sorted : List.Sorted (· ≤ ·) sortedTarget :=
  sortedTarget_pairwise_lt.imp le_of_lt

theorem bubble_sort_sortInput_eq : bubble_sort sortInput = sortedTarget := by
  have h2 : List.Perm sortInput sortedTarget := by
    rw [sortInput_eq_reverse]
    exact List.reverse_perm sortedTarget
  exact List.eq_of_perm_of_sorted ((bubble_sort_perm sortInput).trans h2)
    (bubble_sort_sorted sortInput) sortedTarget_sorted

theorem sortedTarget_first : sortedTarget[0]? = some 0 := by
  rw [sortedTarget, List.getElem?_map, List.getElem?_range (by norm_num)]
  rfl

theorem sortedTarget_last : sortedTarget[9999]? = some 9999 := by
  rw [sortedTarget, List.getElem?_map, List.getElem?_range (by norm_num)]
  rfl

/-- C8: on every finite list of integers, `bubble_sort` (a total function,
hence terminating) produces a non-decreasingly sorted permutation of its
input. -/
theorem bubble_sort_correct (l : List Int) :
    List.Sorted (· ≤ ·) (bubble_sort l) ∧ List.Perm (bubble_sort l) l :=
  ⟨bubble_sort_sorted l, bubble_sort_perm l⟩

/-- C1 counterexample: on the benchmark's actual input `[9999, 9998, ..., 0]`
(the loop appends `10000 - i` for i in 1..10000), the sorted array does not
start with 1 and end with 10000 — it starts with 0 and ends with 9999. -/
theorem arraySorting_claim_false :
    ¬((bubble_sort sortInput)[0]? = some 1 ∧
      (bubble_sort sortInput)[9999]? = some 10000) := by
  rintro ⟨h1, _⟩
  rw [bubble_sort_sortInput_eq, sortedTarget_first] at h1
  exact absurd (Option.some.inj h1) (by norm_num)

/-- C1 (amended): the sorted output of the Comparison Sort kernel is strictly
ascending, with first element 0 (index 0) and last element 9999 (index 9999). -/
theorem arraySorting_result :
    List.Pairwise (· < ·) (bubble_sort sortInput) ∧
    (bubble_sort sortInput)[0]? = some 0 ∧
    (bubble_sort sortInput)[9999]? = some 9999 := by
  rw [bubble_sort_sortInput_eq]
  exact ⟨sortedTarget_pairwise_lt, sortedTarget_first, sortedTarget_last⟩

theorem memoryKernel_fold_length (k : Nat) :
    ((List.range' 1 k).foldl
      (fun (a : DynamicArray) (i : Nat) => memoryKernelStep a (i : Int))
      (DynamicArray.mkInit 1000)).data.length = k % 5001 := by
  induction k with
  | zero => rfl
  | succ k ih =>
      rw [List.range'_1_concat, List.foldl_append]
      simp only [List.foldl_cons, List.foldl_nil]
      rw [memoryKernelStep_length, ih]
      by_cases h : k % 5001 + 1 > 5000
      · rw [if_pos h]
        omega
      · rw [if_neg h]
        omega

theorem memoryKernel_final_length : memoryKernel.data.length = 4999 := by
  unfold memoryKernel
  rw [memoryKernel_fold_length]

/-- C2 counterexample: the Allocation Churn kernel's final container length is
not 5000.  (The reset fires after push 5001, so 4999 pushes remain.) -/
theorem allocationChurn_claim_false : ¬(memoryKernel.data.length = 5000) := by
  rw [memoryKernel_final_length]
  norm_num

/-- C2 (amended): after the full 10,000-push loop the final container's length
lies in `[1, 5000]` and equals 4999 — the number of pushes since the single
reset, which fires when the length first exceeds 5000, i.e. after push 5001. -/
theorem allocationChurn_final_length :
    memoryKernel.data.length = 4999 ∧
    1 ≤ memoryKernel.data.length ∧ memoryKernel.data.length ≤ 5000 := by
  rw [memoryKernel_final_length]
  norm_num

theorem sum_range'_foldl (n : Nat) :
    2 * ((List.range' 1 n).foldl (fun (s : Int) (i : Nat) => s + (i : Int)) 0) =
      (n : Int) * ((n : Int) + 1) := by
  induction n with
  | zero => rfl
  | succ n ih =>
      rw [List.range'_1_concat, List.foldl_append]
      simp only [List.foldl_cons, List.foldl_nil]
      push_cast
      push_cast at ih
      linarith [ih]

/-- C7: the Simple Loop kernel sums the integers 1 through 1,000,000 and the
result is exactly 500000500000 (the kernel is a pure function of no inputs,
hence the same on every run). -/
theorem simpleLoopSum_value : simpleLoopSum = 500000500000 := by
  have h := sum_range'_foldl 1000000
  norm_num at h
  unfold simpleLoopSum
  omega

/-- C9: `fibonacci` is total on all integers: every `n ≤ 1` (negatives
included) is returned unchanged, and for `n > 1` the two recursive arguments
`n - 1` and `n - 2` are strictly smaller than `n`, so the recursion
terminates. -/
theorem fibonacci_spec :
    (∀ n : Int, n ≤ 1 → fibonacci n = n) ∧
    fibonacci (-5) = -5 ∧ fibonacci 0 = 0 ∧ fibonacci 1 = 1 ∧
    (∀ n : Int, 1 < n → fibonacci n = fibonacci (n - 1) + fibonacci (n - 2)) ∧
    (∀ n : Int, 1 < n → n - 1 < n ∧ n - 2 < n) := by
  have hbase : ∀ n : Int, n ≤ 1 → fibonacci n = n := by
    intro n h
    rw [fibonacci]
    exact if_pos h
  refine ⟨hbase, hbase _ (by norm_num), hbase _ (by norm_num), hbase _ le_rfl, ?_, ?_⟩
  · intro n h
    rw [fibonacci]
    rw [if_neg (by omega)]
  · intro n _
    omega

theorem fibonacci_spec_witness :
    fibonacci (-5) = -5 ∧ fibonacci 2 = fibonacci 1 + fibonacci 0 :=
  ⟨fibonacci_spec.1 (-5) (by norm_num), fibonacci_spec.2.2.2.2.1 2 (by norm_num)⟩

/-- C10: `DynamicArray.push` appends at the end: length grows by one, the new
value is readable at the old length, every previously valid index is
unchanged, and the only other field, `capacity`, is either kept or doubled. -/
theorem push_frame_spec (a : DynamicArray) (v : Int) (i : Nat)
    (h : i < a.data.length) :
    (a.push v).data.length = a.data.length + 1 ∧
    (a.push v).getItem a.data.length = some v ∧
    (a.push v).getItem i = a.getItem i ∧
    ((a.push v).capacity = a.capacity ∨ (a.push v).capacity = a.capacity * 2) := by
  refine ⟨DynamicArray.push_length a v, ?_, ?_, ?_⟩
  · unfold DynamicArray.getItem
    rw [DynamicArray.push_data]
    exact List.getElem?_concat_length _ _
  · unfold DynamicArray.getItem
    rw [DynamicArray.push_data]
    exact List.getElem?_append_left h
  · unfold DynamicArray.push
    dsimp only
    split
    · exact Or.inr rfl
    · exact Or.inl rfl

theorem push_frame_spec_witness :
    ((DynamicArray.mk [5, 7] 1000).push 9).getItem 1 =
      (DynamicArray.mk [5, 7] 1000).getItem 1 :=
  (push_frame_spec (DynamicArray.mk [5, 7] 1000) 9 1 (by norm_num)).2.2.1

theorem DynamicArray.push_invariant (a : DynamicArray) (v : Int)
    (hcap : 1 ≤ a.capacity) (hlen : (a.data.length : Int) ≤ a.capacity) :
    1 ≤ (a.push v).capacity ∧
    ((a.push v).data.length : Int) ≤ (a.push v).capacity ∧
    a.capacity ≤ (a.push v).capacity := by
  have hl : (a.push v).data.length = a.data.length + 1 := DynamicArray.push_length a v
  unfold DynamicArray.push at hl ⊢
  dsimp only at hl ⊢
  split at hl <;> split <;> simp_all <;> omega

theorem DynamicArray.pushAll_invariant (vs : List Int) :
    ∀ a : DynamicArray, 1 ≤ a.capacity → (a.data.length : Int) ≤ a.capacity →
      1 ≤ (a.pushAll vs).capacity ∧
      ((a.pushAll vs).data.length : Int) ≤ (a.pushAll vs).capacity ∧
      a.capacity ≤ (a.pushAll vs).capacity := by
  induction vs with
  | nil => intro a h1 h2; exact ⟨h1, h2, le_refl _⟩
  | cons v vs ih =>
      intro a h1 h2
      obtain ⟨g1, g2, g3⟩ := DynamicArray.push_invariant a v h1 h2
      obtain ⟨k1, k2, k3⟩ := ih (a.push v) g1 g2
      exact ⟨k1, k2, le_trans g3 k3⟩

theorem DynamicString.append_invariant (s : DynamicString) (f : String)
    (hcap : 1 ≤ s.capacity) (hlen : (s.data.length : Int) ≤ s.capacity)
    (hf : (f.length : Int) ≤ s.capacity) :
    1 ≤ (s.append f).capacity ∧
    ((s.append f).data.length : Int) ≤ (s.append f).capacity ∧
    s.capacity ≤ (s.append f).capacity := by
  have hl : (s.data ++ f).length = s.data.length + f.length := String.length_append _ _
  unfold DynamicString.append
  dsimp only
  split <;> simp_all <;> omega

theorem DynamicString.appendAll_invariant (fs : List String) :
    ∀ s : DynamicString, 1 ≤ s.capacity → (s.data.length : Int) ≤ s.capacity →
      (∀ f ∈ fs, (f.length : Int) ≤ s.capacity) →
      1 ≤ (s.appendAll fs).capacity ∧
      ((s.appendAll fs).data.length : Int) ≤ (s.appendAll fs).capacity ∧
      s.capacity ≤ (s.appendAll fs).capacity := by
  induction fs with
  | nil => intro s h1 h2 _; exact ⟨h1, h2, le_refl _⟩
  | cons f fs ih =>
      intro s h1 h2 hf
      obtain ⟨g1, g2, g3⟩ :=
        DynamicString.append_invariant s f h1 h2 (hf f (by simp))
      obtain ⟨k1, k2, k3⟩ := ih (s.append f) g1 g2
        (fun x hx => le_trans (hf x (by simp [hx])) g3)
      exact ⟨k1, k2, le_trans g3 k3⟩

/-- C4 counterexample: starting from a `DynamicString` with capacity 1 (≥ 1),
a single `append` of the three-character fragment `"abc"` leaves length 3 but
capacity only 2 after the doubling check, so capacity ≥ length fails. -/
theorem growableText_capacity_claim_false :
    ¬((((DynamicString.mkInit 1).appendAll ["abc"]).data.length : Int) ≤
        ((DynamicString.mkInit 1).appendAll ["abc"]).capacity) := by
  decide

/-- C4 (amended): for any run of pushes on a `DynamicArray` and of appends on
a `DynamicString` starting from capacity ≥ 1 with length ≤ capacity, the
capacity never decreases; capacity ≥ length is maintained after every push,
and after every append provided each fragment is no longer than the capacity
in force when it is appended (the initial capacity suffices as a bound).
Without that proviso a single long fragment can exceed the doubled capacity. -/
theorem capacity_invariant :
    (∀ (a : DynamicArray) (vs : List Int),
      1 ≤ a.capacity → (a.data.length : Int) ≤ a.capacity →
      a.capacity ≤ (a.pushAll vs).capacity ∧
      ((a.pushAll vs).data.length : Int) ≤ (a.pushAll vs).capacity) ∧
    (∀ (s : DynamicString) (fs : List String),
      1 ≤ s.capacity → (s.data.length : Int) ≤ s.capacity →
      (∀ f ∈ fs, (f.length : Int) ≤ s.capacity) →
      s.capacity ≤ (s.appendAll fs).capacity ∧
      ((s.appendAll fs).data.length : Int) ≤ (s.appendAll fs).capacity) := by
  constructor
  · intro a vs h1 h2
    obtain ⟨_, g2, g3⟩ := DynamicArray.pushAll_invariant vs a h1 h2
    exact ⟨g3, g2⟩
  · intro s fs h1 h2 hf
    obtain ⟨_, g2, g3⟩ := DynamicString.appendAll_invariant fs s h1 h2 hf
    exact ⟨g3, g2⟩

theorem capacity_invariant_witness :
    (DynamicArray.mkInit 2).capacity ≤
      ((DynamicArray.mkInit 2).pushAll [4, 5, 6]).capacity ∧
    (((DynamicString.mkInit 4).appendAll ["ab", "cd", "ef"]).data.length : Int) ≤
      ((DynamicString.mkInit 4).appendAll ["ab", "cd", "ef"]).capacity :=
  ⟨(capacity_invariant.1 (DynamicArray.mkInit 2) [4, 5, 6]
      (by norm_num [DynamicArray.mkInit]) (by simp [DynamicArray.mkInit])).1,
   (capacity_invariant.2 (DynamicString.mkInit 4) ["ab", "cd", "ef"]
      (by norm_num [DynamicString.mkInit]) (by simp [DynamicString.mkInit])
      (by decide)).2⟩

/-- A wall-clock trace in which the second reading is smaller than the first,
as Python's settable `time.time()` permits (e.g. a backward clock-sync jump). -/
def backwardClock : Nat → Int := fun i => if i = 0 then 5 else 3

/-- C6 counterexample: with a backward-jumping wall-clock trace the second
read is below the first and the timer's duration is negative, so the source's
timing primitive is not drawn from a monotonically non-decreasing source. -/
theorem wallClock_negative_duration :
    get_time_microseconds backwardClock 1 < get_time_microseconds backwardClock 0 ∧
    ((BenchmarkTimer.init.start backwardClock 0).stop backwardClock 1).duration < 0 := by
  constructor
  · decide
  · decide

/-- C6 (amended): a timer measures `duration = stop reading − start reading`;
whenever the clock trace is non-decreasing (which `time.time()` does not
guarantee) and the stop read comes after the start read, the duration is
non-negative. -/
theorem timer_duration_spec (clock : Nat → Int) (t : BenchmarkTimer) (i j : Nat) :
    ((t.start clock i).stop clock j).duration =
      get_time_microseconds clock j - get_time_microseconds clock i ∧
    (Monotone clock → i ≤ j →
      0 ≤ ((t.start clock i).stop clock j).duration) := by
  constructor
  · rfl
  · intro hmono hij
    have h := hmono hij
    show 0 ≤ get_time_microseconds clock j - get_time_microseconds clock i
    unfold get_time_microseconds
    omega

theorem timer_duration_spec_witness :
    0 ≤ ((BenchmarkTimer.init.start (fun n => (n : Int)) 2).stop
          (fun n => (n : Int)) 5).duration :=
  (timer_duration_spec (fun n => (n : Int)) BenchmarkTimer.init 2 5).2
    (fun a b hab => by simp only []; exact_mod_cast hab) (by norm_num)

/-! The per-kernel report lines printed immediately after each kernel, as
built by the f-strings in `main`. -/

/-- Embeds the f-string of benchmark 1's report line. -/
def simpleLoopLine (t v : Int) : String :=
  "Simple Loop (1M): " ++ toString t ++ " microseconds, Sum: " ++ toString v

/-- Embeds the f-string of benchmark 2's report line. -/
def stringConcatLine (t v : Int) : String :=
  "String Concatenation (10K): " ++ toString t ++ " microseconds, Length: " ++ toString v

/-- Embeds the f-string of benchmark 3's report line. -/
def arrayCreationLine (t v : Int) : String :=
  "Array Creation (100K): " ++ toString t ++ " microseconds, Length: " ++ toString v

/-- Embeds the f-string of benchmark 4's report line. -/
def mathOpsLine (t v : Int) : String :=
  "Math Operations (100K): " ++ toString t ++ " microseconds, Result: " ++ toString v

/-- Embeds the f-string of benchmark 5's report line — note that it carries
no auxiliary value after the duration. -/
def funcCallsLine (t : Int) : String :=
  "Function Calls (100K): " ++ toString t ++ " microseconds"

/-- Embeds the f-string of benchmark 6's report line. -/
def nestedLoopLine (t v : Int) : String :=
  "Nested Loop (1K x 1K): " ++ toString t ++ " microseconds, Sum: " ++ toString v

/-- Embeds the f-string of benchmark 7's report line. -/
def stringSearchLine (t v : Int) : String :=
  "String Search (100K): " ++ toString t ++ " microseconds, Found: " ++ toString v

/-- Embeds the f-string of benchmark 8's report line (two auxiliary values). -/
def arraySortingLine (t f l : Int) : String :=
  "Array Sorting (10K): " ++ toString t ++ " microseconds, First: " ++ toString f
    ++ ", Last: " ++ toString l

/-- Embeds the f-string of benchmark 9's report line. -/
def recursiveLine (t v : Int) : String :=
  "Recursive Functions (1K): " ++ toString t ++ " microseconds, Fib(20): " ++ toString v

/-- Embeds the f-string of benchmark 10's report line. -/
def memoryOpsLine (t v : Int) : String :=
  "Memory Operations (10K): " ++ toString t ++ " microseconds, Final Length: " ++ toString v

/-- The line shape claimed for every immediate report:
a label, the duration, then an auxiliary part after " microseconds, ". -/
def immediateReportForm (s : String) : Prop :=
  ∃ label : String, ∃ d : Int, ∃ auxPart : String,
    s = label ++ ": " ++ toString d ++ " microseconds, " ++ auxPart

theorem immediateReportForm_of (A B label auxL : String) (d : Int) (V : String)
    (hA : A = label ++ ": ") (hB : B = " microseconds, " ++ auxL) :
    immediateReportForm (A ++ toString d ++ B ++ V) := by
  refine ⟨label, d, auxL ++ V, ?_⟩
  rw [hA, hB]
  simp [String.append_assoc]

/-- C3 counterexample: benchmark 5's immediate report line (here with
duration 0) is not of the claimed form — it ends at " microseconds" and
carries no auxiliary value. -/
theorem functionCalls_line_lacks_aux : ¬ immediateReportForm (funcCallsLine 0) := by
  rintro ⟨label, d, auxPart, h⟩
  have hinf : (" microseconds, ").data <:+: (funcCallsLine 0).data := by
    rw [h]
    refine ⟨(label ++ ": " ++ toString d).data, auxPart.data, ?_⟩
    simp [String.data_append, List.append_assoc]
  exact absurd hinf (by decide)

/-- C3 (amended): of the ten immediate report lines, all but benchmark 5's
have the form "<Label>: <duration> microseconds, <AuxiliaryLabel>: <value>";
benchmark 5 (Function Calls) prints only "<Label>: <duration> microseconds",
with no auxiliary value. -/
theorem immediateReport_forms (t v w : Int) :
    immediateReportForm (simpleLoopLine t v) ∧
    immediateReportForm (stringConcatLine t v) ∧
    immediateReportForm (arrayCreationLine t v) ∧
    immediateReportForm (mathOpsLine t v) ∧
    funcCallsLine t = "Function Calls (100K)" ++ ": " ++ toString t ++ " microseconds" ∧
    immediateReportForm (nestedLoopLine t v) ∧
    immediateReportForm (stringSearchLine t v) ∧
    immediateReportForm (arraySortingLine t v w) ∧
    immediateReportForm (recursiveLine t v) ∧
    immediateReportForm (memoryOpsLine t v) := by
  refine ⟨?_, ?_, ?_, ?_, ?_, ?_, ?_, ?_, ?_, ?_⟩
  · exact immediateReportForm_of "Simple Loop (1M): " " microseconds, Sum: "
      "Simple Loop (1M)" "Sum: " t (toString v) (by decide) (by decide)
  · exact immediateReportForm_of "String Concatenation (10K): " " microseconds, Length: "
      "String Concatenation (10K)" "Length: " t (toString v) (by decide) (by decide)
  · exact immediateReportForm_of "Array Creation (100K): " " microseconds, Length: "
      "Array Creation (100K)" "Length: " t (toString v) (by decide) (by decide)
  · exact immediateReportForm_of "Math Operations (100K): " " microseconds, Result: "
      "Math Operations (100K)" "Result: " t (toString v) (by decide) (by decide)
  · rw [funcCallsLine]
    rw [show ("Function Calls (100K)" ++ ": " : String) = "Function Calls (100K): " by decide]
  · exact immediateReportForm_of "Nested Loop (1K x 1K): " " microseconds, Sum: "
      "Nested Loop (1K x 1K)" "Sum: " t (toString v) (by decide) (by decide)
  · exact immediateReportForm_of "String Search (100K): " " microseconds, Found: "
      "String Search (100K)" "Found: " t (toString v) (by decide) (by decide)
  · have heq : arraySortingLine t v w =
        "Array Sorting (10K): " ++ toString t ++ " microseconds, First: " ++
          (toString v ++ (", Last: " ++ toString w)) := by
      rw [arraySortingLine]
      simp [String.append_assoc]
    rw [heq]
    exact immediateReportForm_of "Array Sorting (10K): " " microseconds, First: "
      "Array Sorting (10K)" "First: " t (toString v ++ (", Last: " ++ toString w))
      (by decide) (by decide)
  · exact immediateReportForm_of "Recursive Functions (1K): " " microseconds, Fib(20): "
      "Recursive Functions (1K)" "Fib(20): " t (toString v) (by decide) (by decide)
  · exact immediateReportForm_of "Memory Operations (10K): " " microseconds, Final Length: "
      "Memory Operations (10K)" "Final Length: " t (toString v) (by decide) (by decide)

/-- Embeds the summary total:
`total_time = (loop_time + string_time + array_time + math_time + func_time +
nested_time + search_time + sort_time + recursive_time + memory_time)`. -/
def total_time (loop_t string_t array_t math_t func_t nested_t search_t sort_t
    recursive_t memory_t : Int) : Int :=
  loop_t + string_t + array_t + math_t + func_t + nested_t + search_t + sort_t +
    recursive_t + memory_t

/-- Embeds `print(f"Total Benchmark Time: {total_time} microseconds")`. -/
def totalMicrosecondsLine (total : Int) : String :=
  "Total Benchmark Time: " ++ toString total ++ " microseconds"

/-- Models the value printed by
`print(f"Total Benchmark Time: {total_time / 1000:.1f} milliseconds")`:
the quotient `total_time / 1000` rounded to one decimal place.  The source
formats an IEEE-754 double with `:.1f`; the model rounds the exact rational
quotient at the same decimal position. -/
def totalMillisecondsValue (total : Int) : ℚ :=
  ((round ((total : ℚ) / 100) : Int) : ℚ) / 10

/-- C5: the reported total is the exact integer sum of the ten kernel
durations; it is printed once in microseconds (exactly that integer) and once
in milliseconds, where the printed value is the quotient by 1000 rounded to
one decimal place: a multiple of 1/10 within 1/20 of the exact quotient. -/
theorem total_time_reported (d1 d2 d3 d4 d5 d6 d7 d8 d9 d10 : Int) :
    total_time d1 d2 d3 d4 d5 d6 d7 d8 d9 d10 =
      [d1, d2, d3, d4, d5, d6, d7, d8, d9, d10].sum ∧
    totalMicrosecondsLine (total_time d1 d2 d3 d4 d5 d6 d7 d8 d9 d10) =
      "Total Benchmark Time: " ++
        toString ([d1, d2, d3, d4, d5, d6, d7, d8, d9, d10].sum) ++
        " microseconds" ∧
    (totalMillisecondsValue (total_time d1 d2 d3 d4 d5 d6 d7 d8 d9 d10) * 10).den
      = 1 ∧
    |totalMillisecondsValue (total_time d1 d2 d3 d4 d5 d6 d7 d8 d9 d10) -
        ((total_time d1 d2 d3 d4 d5 d6 d7 d8 d9 d10 : ℚ) / 1000)| ≤ 1 / 20 := by
  have hsum : total_time d1 d2 d3 d4 d5 d6 d7 d8 d9 d10 =
      [d1, d2, d3, d4, d5, d6, d7, d8, d9, d10].sum := by
    simp [total_time, List.sum_cons]
    ring
  refine ⟨hsum, by rw [totalMicrosecondsLine, hsum], ?_, ?_⟩
  · rw [totalMillisecondsValue]
    rw [div_mul_cancel₀ _ (by norm_num : (10 : ℚ) ≠ 0)]
    exact Rat.den_intCast _
  · rw [totalMillisecondsValue]
    have hq : ((total_time d1 d2 d3 d4 d5 d6 d7 d8 d9 d10 : Int) : ℚ) / 1000 =
        (((total_time d1 d2 d3 d4 d5 d6 d7 d8 d9 d10 : Int) : ℚ) / 100) / 10 := by
      ring
    rw [hq, div_sub_div_same, abs_div]
    have habs := abs_sub_round (((total_time d1 d2 d3 d4 d5 d6 d7 d8 d9 d10 : Int) : ℚ) / 100)
    rw [show |(10 : ℚ)| = 10 by norm_num]
    have h20 : (1 : ℚ) / 20 = (1 / 2) / 10 := by norm_num
    rw [h20, abs_sub_comm]
    exact div_le_div_of_nonneg_right habs (by norm_num)
